import Mathlib

/-!
Verification development for the chain event ingestion and checkpointing engine
of this repository: the ERC-721 monitor (`egg_premium.js`) and the ERC-1155
items monitor (`items_erc1155_monitor.js`).  Each definition is a shallow
embedding of the corresponding JavaScript function; machine numbers are
modelled as `Nat`/`Int` (block heights and the `CONFIRMATIONS` offset can make
`head - confirmations` negative, hence `Int` there), uint256 token ids and
amounts as `Nat`, and fallible chain-client calls as `Except`.
-/

namespace Dis

/-- JS `String.prototype.toLowerCase`, restricted to the ASCII strings
(addresses, transaction hashes) this program lowercases: lowercase every
character. -/
def lowerStr (s : String) : String := String.mk (s.data.map Char.toLower)

/-! ### Range Scheduler

Both monitors chunk a `[start, end]` block interval with the loop
`for (let start = fromBlock; start <= latest; start += CHUNK + 1)`
with per-iteration slice `[start, Math.min(latest, start + CHUNK)]`
(`egg_premium.js` line 169, `items_erc1155_monitor.js` line 220). -/

/-- The list of `(start, end)` slices produced by the backfill loop. -/
def chunks (maxSize start endH : Nat) : List (Nat × Nat) :=
  if _h : start ≤ endH then
    (start, min endH (start + maxSize)) :: chunks maxSize (start + maxSize + 1) endH
  else []
termination_by endH + 1 - start
decreasing_by omega

theorem chunks_empty_of_lt (maxSize start endH : Nat) (h : endH < start) :
    chunks maxSize start endH = [] := by
  rw [chunks]
  simp [Nat.not_le.mpr h]

theorem range_split (s a b : Nat) :
    List.range' s (a + b) = List.range' s a ++ List.range' (s + a) b := by
  induction a generalizing s with
  | zero => simp
  | succ n ih =>
      rw [Nat.succ_add, List.range'_succ, List.range'_succ, ih (s + 1)]
      simp [List.cons_append, Nat.add_comm, Nat.add_assoc, Nat.add_left_comm]

theorem chunks_cover (maxSize start endH : Nat) :
    (chunks maxSize start endH).flatMap (fun r => List.range' r.1 (r.2 + 1 - r.1)) =
      List.range' start (endH + 1 - start) := by
  induction start, endH using chunks.induct maxSize with
  | case1 s e h ih =>
      rw [chunks]
      simp only [dif_pos h, List.flatMap_cons]
      rw [ih]
      by_cases hc : s + maxSize ≤ e
      · have hmin : min e (s + maxSize) = s + maxSize := Nat.min_eq_right hc
        rw [hmin]
        have h1 : s + maxSize + 1 - s = maxSize + 1 := by omega
        have h2 : e + 1 - s = (maxSize + 1) + (e + 1 - (s + maxSize + 1)) := by omega
        rw [h1, h2, range_split s (maxSize + 1) (e + 1 - (s + maxSize + 1))]
        have h3 : s + (maxSize + 1) = s + maxSize + 1 := by omega
        rw [h3]
      · have hmin : min e (s + maxSize) = e := Nat.min_eq_left (by omega)
        rw [hmin]
        have h1 : e + 1 - (s + maxSize + 1) = 0 := by omega
        rw [h1]
        simp
  | case2 s e h =>
      rw [chunks]
      have h1 : e + 1 - s = 0 := by omega
      simp [dif_neg h, h1]

theorem chunks_width (maxSize start endH : Nat) (r : Nat × Nat)
    (hr : r ∈ chunks maxSize start endH) : r.1 ≤ r.2 ∧ r.2 - r.1 ≤ maxSize := by
  induction start, endH using chunks.induct maxSize with
  | case1 s e h ih =>
      rw [chunks] at hr
      simp only [dif_pos h, List.mem_cons] at hr
      rcases hr with hr | hr
      · subst hr
        refine ⟨by simp; omega, by simp; omega⟩
      · exact ih hr
  | case2 s e h =>
      rw [chunks] at hr
      simp [dif_neg h] at hr

/-- C3: for every `start ≤ end` the Range Scheduler's slices cover every height
in `[start, end]` exactly once, in ascending order, with no gaps and no
overlaps (their concatenated inclusive ranges equal `[start, end]` as a list),
each slice's width `end - start` is at most `maxSize`, and for `start > end`
the produced sequence is empty. -/
theorem C3_chunk_contiguity (maxSize start endH : Nat) :
    (endH < start → chunks maxSize start endH = []) ∧
    ((chunks maxSize start endH).flatMap (fun r => List.range' r.1 (r.2 + 1 - r.1)) =
        List.range' start (endH + 1 - start)) ∧
    (∀ r ∈ chunks maxSize start endH, r.1 ≤ r.2 ∧ r.2 - r.1 ≤ maxSize) :=
  ⟨chunks_empty_of_lt maxSize start endH,
   chunks_cover maxSize start endH,
   fun r hr => chunks_width maxSize start endH r hr⟩

theorem C3_chunk_contiguity_witness :
    chunks 100 300 250 = [] ∧ ((0, 100) : Nat × Nat).1 ≤ ((0, 100) : Nat × Nat).2 ∧
      ((0, 100) : Nat × Nat).2 - ((0, 100) : Nat × Nat).1 ≤ 100 :=
  ⟨(C3_chunk_contiguity 100 300 250).1 (by omega),
   ((C3_chunk_contiguity 100 0 250).2.2 (0, 100) (by rw [chunks]; simp)).1,
   ((C3_chunk_contiguity 100 0 250).2.2 (0, 100) (by rw [chunks]; simp)).2⟩

/-- C2 as stated is false: on `maxSize=100, start=0, end=250` the scheduler
does not yield `[0,100],[101,200],[201,250]` (its second slice is `[101,201]`,
since every slice except the last spans `maxSize + 1` heights). -/
theorem C2_counterexample :
    chunks 100 0 250 ≠ [(0, 100), (101, 200), (201, 250)] := by
  rw [chunks, chunks, chunks, chunks]
  simp

/-- C2 amended: with `maxSize=100, start=0, end=250` the Range Scheduler yields
exactly the three ranges `[0,100]`, `[101,201]`, `[202,250]`, in that order. -/
theorem C2_concrete_ranges :
    chunks 100 0 250 = [(0, 100), (101, 201), (202, 250)] := by
  rw [chunks, chunks, chunks, chunks]
  simp

/-! ### Transfer Filter & Normalizer — items monitor (`items_erc1155_monitor.js`)

Raw decoded events carry the decoded `args` (addresses, uint256 ids/amounts,
modelled as `Nat`: a falsy BigInt is exactly `0`) together with the log's
`blockNumber` and `transactionHash`. -/

/-- A decoded `TransferSingle(operator, from, to, id, value)` log. -/
structure TransferSingleEvent where
  fromAddr : String
  toAddr : String
  id : Nat
  value : Nat
  blockNumber : Nat
  txHash : String
deriving DecidableEq

/-- A decoded `TransferBatch(operator, from, to, ids, values)` log. -/
structure TransferBatchEvent where
  fromAddr : String
  toAddr : String
  ids : List Nat
  values : List Nat
  blockNumber : Nat
  txHash : String
deriving DecidableEq

/-- `ITEM_TYPES` (items_erc1155_monitor.js lines 25-42): item id → name. -/
def ITEM_TYPES : List (String × String) :=
  [("4", "Bolt"), ("5", "Pipe"), ("73", "Crusader Dust"), ("74", "Overseer Dust"),
   ("75", "Athena Dust"), ("76", "Archon Dust"), ("77", "Foxglove Dust"),
   ("78", "Summoner Dust"), ("79", "Chobo Dust"), ("80", "Crusader Shard"),
   ("81", "Overseer Shard"), ("82", "Athena Shard"), ("83", "Archon Shard"),
   ("84", "Foxglove Shard"), ("85", "Summoner Shard"), ("86", "Chobo Shard")]

/-- `WATCH_TOKEN_IDS = new Set(Object.keys(ITEM_TYPES))` (line 45). -/
def WATCH_TOKEN_IDS : List String := ITEM_TYPES.map Prod.fst

/-- The row written by the items monitor's `enrichAndPersist` (lines 101-112). -/
structure ItemsRow where
  receivedTo : String
  sender : String
  tokenIds : List String
  amounts : List String
  itemTypes : List String
  totalAmount : String
  blockNumber : Nat
  txHash : String
  dateISO : String
  contract : String
deriving DecidableEq

/-- Row construction inside the items monitor's `enrichAndPersist` (lines
94-112): ids and amounts stringified, item names looked up in `ITEM_TYPES`
(`"Unknown"` when absent), `totalAmount` the sum of all amounts.  The resolved
block timestamp `isoDate` and the configured contract address are passed in
(chain client and config are external collaborators). -/
def itemsRow (fromAddr toAddr : String) (tokenIds amounts : List Nat)
    (blockNumber : Nat) (txHash isoDate contractAddress : String) : ItemsRow :=
  { receivedTo := toAddr
    sender := fromAddr
    tokenIds := tokenIds.map toString
    amounts := amounts.map toString
    itemTypes := tokenIds.map (fun id => ((ITEM_TYPES.lookup (toString id)).getD "Unknown"))
    totalAmount := toString (amounts.foldl (fun sum amt => sum + amt) 0)
    blockNumber := blockNumber
    txHash := txHash
    dateISO := isoDate
    contract := contractAddress }

/-- The push/sort comparator `(a, b) => b.blockNumber - a.blockNumber`:
descending block numbers (insertion sort; both monitors sort this way). -/
def insertByBlockDesc {α : Type} (blk : α → Nat) (r : α) : List α → List α
  | [] => [r]
  | x :: xs => if blk r ≤ blk x then x :: insertByBlockDesc blk r xs else r :: x :: xs

def sortByBlockDesc {α : Type} (blk : α → Nat) : List α → List α
  | [] => []
  | x :: xs => insertByBlockDesc blk x (sortByBlockDesc blk xs)

/-- The shared store-append pattern of both monitors' `enrichAndPersist`:
look the new row's key up in the loaded db; when absent, push the row, sort by
descending block number and persist; when present, leave the db untouched. -/
def dedupSortAppend {α : Type} (key : α → String) (blk : α → Nat)
    (db : List α) (row : α) : List α :=
  if db.any (fun x => key x == key row) then db
  else sortByBlockDesc blk (db ++ [row])

/-- The items monitor's dedup key (lines 115-118): the lowercased transaction
hash alone. -/
def itemsKey (r : ItemsRow) : String := lowerStr r.txHash

/-- Items monitor `enrichAndPersist`, store part (lines 114-125): the dedup key
is the lowercased transaction hash alone. -/
def itemsAppend (db : List ItemsRow) (row : ItemsRow) : List ItemsRow :=
  dedupSortAppend itemsKey (fun r => r.blockNumber) db row

/-- `handleTransferSingle` (lines 128-145): drop zero id/value, drop receivers
other than the watched wallet, drop unwatched ids; otherwise hand
`(from, to, [id], [value])` to `enrichAndPersist`. -/
def handleTransferSingle (watchWallet : String) (watchIds : List String)
    (ev : TransferSingleEvent) : Option (String × String × List Nat × List Nat) :=
  let fromAddr := lowerStr ev.fromAddr
  let toAddr := lowerStr ev.toAddr
  if ev.id = 0 ∨ ev.value = 0 then none
  else if toAddr ≠ watchWallet then none
  else if toString ev.id ∉ watchIds then none
  else some (fromAddr, toAddr, [ev.id], [ev.value])

/-- `handleTransferBatch` (lines 147-174): drop receivers other than the
watched wallet; keep exactly the entries with nonzero id and value whose id is
in the watch-set; produce nothing when no entry survives. -/
def handleTransferBatch (watchWallet : String) (watchIds : List String)
    (ev : TransferBatchEvent) : Option (String × String × List Nat × List Nat) :=
  let fromAddr := lowerStr ev.fromAddr
  let toAddr := lowerStr ev.toAddr
  if toAddr ≠ watchWallet then none
  else
    let kept := (ev.ids.zip ev.values).filter
      (fun p => decide (p.1 ≠ 0 ∧ p.2 ≠ 0 ∧ toString p.1 ∈ watchIds))
    if kept.isEmpty then none
    else some (fromAddr, toAddr, kept.map (fun p => p.1), kept.map (fun p => p.2))

/-- A single event's full filter-and-append pass against the store. -/
def processTransferSingle (watchWallet : String) (watchIds : List String)
    (contractAddress : String) (db : List ItemsRow) (ev : TransferSingleEvent)
    (isoDate : String) : List ItemsRow :=
  match handleTransferSingle watchWallet watchIds ev with
  | none => db
  | some (f, t, ids, vals) =>
      itemsAppend db (itemsRow f t ids vals ev.blockNumber ev.txHash isoDate contractAddress)

def processTransferBatch (watchWallet : String) (watchIds : List String)
    (contractAddress : String) (db : List ItemsRow) (ev : TransferBatchEvent)
    (isoDate : String) : List ItemsRow :=
  match handleTransferBatch watchWallet watchIds ev with
  | none => db
  | some (f, t, ids, vals) =>
      itemsAppend db (itemsRow f t ids vals ev.blockNumber ev.txHash isoDate contractAddress)

/-- One raw event observed by the items monitor's `querySlice`, together with
its resolved block timestamp. -/
inductive ItemsEvent where
  | single (ev : TransferSingleEvent) (isoDate : String)
  | batch (ev : TransferBatchEvent) (isoDate : String)
deriving DecidableEq

def processItemsEvent (watchWallet : String) (watchIds : List String)
    (contractAddress : String) (db : List ItemsRow) : ItemsEvent → List ItemsRow
  | .single ev iso => processTransferSingle watchWallet watchIds contractAddress db ev iso
  | .batch ev iso => processTransferBatch watchWallet watchIds contractAddress db ev iso

/-- The store produced by running a sequence of filter-and-append operations. -/
def processItemsEvents (watchWallet : String) (watchIds : List String)
    (contractAddress : String) (db : List ItemsRow) (evs : List ItemsEvent) : List ItemsRow :=
  evs.foldl (processItemsEvent watchWallet watchIds contractAddress) db

/-! ### Event Record Store — egg monitor (`egg_premium.js`) -/

/-- A decoded ERC-721 `Transfer(from, to, tokenId)` log, as consumed by the
egg monitor's `querySlice`; the server-side filter
`contract.filters.Transfer(null, WATCH_WALLET)` already restricts `to`. -/
structure EggTransferEvent where
  fromAddr : String
  toAddr : String
  tokenId : Nat
  blockNumber : Nat
  txHash : String
deriving DecidableEq

/-- The row written by the egg monitor's `enrichAndPersist` (lines 118-126). -/
structure EggRow where
  receivedTo : String
  sender : String
  tokenId : String
  eggType : String
  blockNumber : Nat
  txHash : String
  dateISO : String
deriving DecidableEq

/-- `makeKey` (egg_premium.js lines 58-60). -/
def makeKey (row : EggRow) : String := lowerStr row.txHash ++ "_" ++ row.tokenId

def eggRow (fromAddr toAddr : String) (tokenId : Nat) (eggType : String)
    (blockNumber : Nat) (txHash isoDate : String) : EggRow :=
  { receivedTo := toAddr
    sender := fromAddr
    tokenId := toString tokenId
    eggType := eggType
    blockNumber := blockNumber
    txHash := txHash
    dateISO := isoDate }

/-- Egg monitor `enrichAndPersist`, store part (lines 128-135): the dedup key
is `makeKey`, i.e. lowercased transaction hash *plus* token id. -/
def eggAppend (db : List EggRow) (row : EggRow) : List EggRow :=
  dedupSortAppend makeKey (fun r => r.blockNumber) db row

/-- One `querySlice` iteration of the egg monitor (lines 138-146): lowercase
the addresses and run `enrichAndPersist` on every log; the resolved timestamp
and egg type come from external collaborators. -/
def eggProcessEvent (db : List EggRow) (ev : EggTransferEvent)
    (eggType isoDate : String) : List EggRow :=
  eggAppend db (eggRow (lowerStr ev.fromAddr) (lowerStr ev.toAddr) ev.tokenId eggType
    ev.blockNumber ev.txHash isoDate)

def eggProcessEvents (db : List EggRow)
    (evs : List (EggTransferEvent × String × String)) : List EggRow :=
  evs.foldl (fun d p => eggProcessEvent d p.1 p.2.1 p.2.2) db

/-! ### Store lemmas: the push/sort/dedup pattern -/

theorem insertByBlockDesc_perm {α : Type} (blk : α → Nat) (r : α) (l : List α) :
    List.Perm (insertByBlockDesc blk r l) (r :: l) := by
  induction l with
  | nil => simp [insertByBlockDesc]
  | cons x xs ih =>
      simp only [insertByBlockDesc]
      split
      · exact (List.Perm.cons x ih).trans (List.Perm.swap r x xs)
      · exact List.Perm.refl _

theorem sortByBlockDesc_perm {α : Type} (blk : α → Nat) (l : List α) :
    List.Perm (sortByBlockDesc blk l) l := by
  induction l with
  | nil => simp [sortByBlockDesc]
  | cons x xs ih =>
      simp only [sortByBlockDesc]
      exact (insertByBlockDesc_perm blk x (sortByBlockDesc blk xs)).trans (List.Perm.cons x ih)

theorem dedupSortAppend_of_mem {α : Type} (key : α → String) (blk : α → Nat)
    (db : List α) (row : α) (h : ∃ x ∈ db, key x = key row) :
    dedupSortAppend key blk db row = db := by
  unfold dedupSortAppend
  rw [if_pos]
  rw [List.any_eq_true]
  obtain ⟨x, hx, hk⟩ := h
  exact ⟨x, hx, by simp [hk]⟩

theorem key_mem_dedupSortAppend {α : Type} (key : α → String) (blk : α → Nat)
    (db : List α) (row : α) :
    key row ∈ (dedupSortAppend key blk db row).map key := by
  unfold dedupSortAppend
  split
  · rename_i hany
    rw [List.any_eq_true] at hany
    obtain ⟨x, hx, hk⟩ := hany
    rw [beq_iff_eq] at hk
    exact hk ▸ List.mem_map_of_mem key hx
  · have hperm := (sortByBlockDesc_perm blk (db ++ [row])).map key
    rw [List.Perm.mem_iff hperm]
    simp

theorem mem_key_dedupSortAppend_mono {α : Type} (key : α → String) (blk : α → Nat)
    (db : List α) (row : α) (k : String) (hk : k ∈ db.map key) :
    k ∈ (dedupSortAppend key blk db row).map key := by
  unfold dedupSortAppend
  split
  · exact hk
  · have hperm := (sortByBlockDesc_perm blk (db ++ [row])).map key
    rw [List.Perm.mem_iff hperm]
    simp only [List.map_append, List.mem_append]
    exact Or.inl hk

theorem dedupSortAppend_key_nodup {α : Type} (key : α → String) (blk : α → Nat)
    (db : List α) (row : α) (h : (db.map key).Nodup) :
    ((dedupSortAppend key blk db row).map key).Nodup := by
  unfold dedupSortAppend
  split
  · exact h
  · rename_i hany
    have hnotmem : key row ∉ db.map key := by
      intro hmem
      rw [List.mem_map] at hmem
      obtain ⟨x, hx, hk⟩ := hmem
      exact hany (List.any_eq_true.mpr ⟨x, hx, by simp [hk]⟩)
    have hperm := (sortByBlockDesc_perm blk (db ++ [row])).map key
    rw [List.Perm.nodup_iff hperm, List.map_append]
    simp [List.nodup_append, h, hnotmem]

/-! ### C1 / C8: key uniqueness and idempotence -/

/-- The dedup key of the row an event would append, when the filter accepts
the event at all: the row's transaction hash is the raw event's. -/
def itemsEventKey (watchWallet : String) (watchIds : List String) :
    ItemsEvent → Option String
  | .single ev _ => (handleTransferSingle watchWallet watchIds ev).map
      (fun _ => lowerStr ev.txHash)
  | .batch ev _ => (handleTransferBatch watchWallet watchIds ev).map
      (fun _ => lowerStr ev.txHash)

theorem processItemsEvent_of_none (ww : String) (wids : List String) (ca : String)
    (db : List ItemsRow) (ev : ItemsEvent) (h : itemsEventKey ww wids ev = none) :
    processItemsEvent ww wids ca db ev = db := by
  cases ev with
  | single e iso =>
      cases hh : handleTransferSingle ww wids e with
      | none => simp [processItemsEvent, processTransferSingle, hh]
      | some v => simp [itemsEventKey, hh] at h
  | batch e iso =>
      cases hh : handleTransferBatch ww wids e with
      | none => simp [processItemsEvent, processTransferBatch, hh]
      | some v => simp [itemsEventKey, hh] at h

theorem processItemsEvent_key_mem (ww : String) (wids : List String) (ca : String)
    (db : List ItemsRow) (ev : ItemsEvent) (k : String)
    (h : itemsEventKey ww wids ev = some k) :
    k ∈ (processItemsEvent ww wids ca db ev).map itemsKey := by
  cases ev with
  | single e iso =>
      cases hh : handleTransferSingle ww wids e with
      | none => simp [itemsEventKey, hh] at h
      | some v =>
          simp only [itemsEventKey, hh, Option.map_some', Option.some.injEq] at h
          subst h
          obtain ⟨f, t, ids, vals⟩ := v
          simp only [processItemsEvent, processTransferSingle, hh, itemsAppend]
          exact key_mem_dedupSortAppend itemsKey (fun r => r.blockNumber) db
            (itemsRow f t ids vals e.blockNumber e.txHash iso ca)
  | batch e iso =>
      cases hh : handleTransferBatch ww wids e with
      | none => simp [itemsEventKey, hh] at h
      | some v =>
          simp only [itemsEventKey, hh, Option.map_some', Option.some.injEq] at h
          subst h
          obtain ⟨f, t, ids, vals⟩ := v
          simp only [processItemsEvent, processTransferBatch, hh, itemsAppend]
          exact key_mem_dedupSortAppend itemsKey (fun r => r.blockNumber) db
            (itemsRow f t ids vals e.blockNumber e.txHash iso ca)

theorem processItemsEvent_mono (ww : String) (wids : List String) (ca : String)
    (db : List ItemsRow) (ev : ItemsEvent) (k : String) (hk : k ∈ db.map itemsKey) :
    k ∈ (processItemsEvent ww wids ca db ev).map itemsKey := by
  cases ev with
  | single e iso =>
      cases hh : handleTransferSingle ww wids e with
      | none => simpa [processItemsEvent, processTransferSingle, hh] using hk
      | some v =>
          obtain ⟨f, t, ids, vals⟩ := v
          simp only [processItemsEvent, processTransferSingle, hh, itemsAppend]
          exact mem_key_dedupSortAppend_mono itemsKey (fun r => r.blockNumber) db _ k hk
  | batch e iso =>
      cases hh : handleTransferBatch ww wids e with
      | none => simpa [processItemsEvent, processTransferBatch, hh] using hk
      | some v =>
          obtain ⟨f, t, ids, vals⟩ := v
          simp only [processItemsEvent, processTransferBatch, hh, itemsAppend]
          exact mem_key_dedupSortAppend_mono itemsKey (fun r => r.blockNumber) db _ k hk

theorem processItemsEvent_fixed (ww : String) (wids : List String) (ca : String)
    (db : List ItemsRow) (ev : ItemsEvent) (k : String)
    (h : itemsEventKey ww wids ev = some k) (hk : k ∈ db.map itemsKey) :
    processItemsEvent ww wids ca db ev = db := by
  cases ev with
  | single e iso =>
      cases hh : handleTransferSingle ww wids e with
      | none => simp [processItemsEvent, processTransferSingle, hh]
      | some v =>
          simp only [itemsEventKey, hh, Option.map_some', Option.some.injEq] at h
          subst h
          obtain ⟨f, t, ids, vals⟩ := v
          simp only [processItemsEvent, processTransferSingle, hh, itemsAppend]
          apply dedupSortAppend_of_mem
          rw [List.mem_map] at hk
          obtain ⟨x, hx, hkey⟩ := hk
          exact ⟨x, hx, hkey⟩
  | batch e iso =>
      cases hh : handleTransferBatch ww wids e with
      | none => simp [processItemsEvent, processTransferBatch, hh]
      | some v =>
          simp only [itemsEventKey, hh, Option.map_some', Option.some.injEq] at h
          subst h
          obtain ⟨f, t, ids, vals⟩ := v
          simp only [processItemsEvent, processTransferBatch, hh, itemsAppend]
          apply dedupSortAppend_of_mem
          rw [List.mem_map] at hk
          obtain ⟨x, hx, hkey⟩ := hk
          exact ⟨x, hx, hkey⟩

theorem processItemsEvent_nodup (ww : String) (wids : List String) (ca : String)
    (db : List ItemsRow) (ev : ItemsEvent) (h : (db.map itemsKey).Nodup) :
    ((processItemsEvent ww wids ca db ev).map itemsKey).Nodup := by
  cases ev with
  | single e iso =>
      cases hh : handleTransferSingle ww wids e with
      | none => simpa [processItemsEvent, processTransferSingle, hh] using h
      | some v =>
          obtain ⟨f, t, ids, vals⟩ := v
          simp only [processItemsEvent, processTransferSingle, hh, itemsAppend]
          exact dedupSortAppend_key_nodup itemsKey (fun r => r.blockNumber) db _ h
  | batch e iso =>
      cases hh : handleTransferBatch ww wids e with
      | none => simpa [processItemsEvent, processTransferBatch, hh] using h
      | some v =>
          obtain ⟨f, t, ids, vals⟩ := v
          simp only [processItemsEvent, processTransferBatch, hh, itemsAppend]
          exact dedupSortAppend_key_nodup itemsKey (fun r => r.blockNumber) db _ h

theorem processItemsEvents_nodup (ww : String) (wids : List String) (ca : String)
    (evs : List ItemsEvent) :
    ∀ db : List ItemsRow, (db.map itemsKey).Nodup →
      ((processItemsEvents ww wids ca db evs).map itemsKey).Nodup := by
  induction evs with
  | nil => intro db h; simpa [processItemsEvents] using h
  | cons e es ih =>
      intro db h
      simp only [processItemsEvents, List.foldl_cons]
      exact ih (processItemsEvent ww wids ca db e) (processItemsEvent_nodup ww wids ca db e h)

theorem processItemsEvents_mono (ww : String) (wids : List String) (ca : String)
    (evs : List ItemsEvent) :
    ∀ (db : List ItemsRow) (k : String), k ∈ db.map itemsKey →
      k ∈ (processItemsEvents ww wids ca db evs).map itemsKey := by
  induction evs with
  | nil => intro db k h; simpa [processItemsEvents] using h
  | cons e es ih =>
      intro db k h
      simp only [processItemsEvents, List.foldl_cons]
      exact ih (processItemsEvent ww wids ca db e) k (processItemsEvent_mono ww wids ca db e k h)

theorem processItemsEvents_key_mem (ww : String) (wids : List String) (ca : String)
    (evs : List ItemsEvent) :
    ∀ (db : List ItemsRow) (ev : ItemsEvent) (k : String), ev ∈ evs →
      itemsEventKey ww wids ev = some k →
      k ∈ (processItemsEvents ww wids ca db evs).map itemsKey := by
  induction evs with
  | nil =>
      intro db ev k h _
      simp at h
  | cons e es ih =>
      intro db ev k hev hk
      simp only [processItemsEvents, List.foldl_cons]
      rcases List.mem_cons.mp hev with he | he
      · subst he
        exact processItemsEvents_mono ww wids ca es (processItemsEvent ww wids ca db ev) k
          (processItemsEvent_key_mem ww wids ca db ev k hk)
      · exact ih (processItemsEvent ww wids ca db e) ev k he hk

theorem processItemsEvents_fixed (ww : String) (wids : List String) (ca : String)
    (evs : List ItemsEvent) :
    ∀ db : List ItemsRow,
      (∀ ev ∈ evs, ∀ k, itemsEventKey ww wids ev = some k → k ∈ db.map itemsKey) →
      processItemsEvents ww wids ca db evs = db := by
  induction evs with
  | nil => intro db _; rfl
  | cons e es ih =>
      intro db h
      have hstep : processItemsEvent ww wids ca db e = db := by
        cases hk : itemsEventKey ww wids e with
        | none => exact processItemsEvent_of_none ww wids ca db e hk
        | some k =>
            exact processItemsEvent_fixed ww wids ca db e k hk
              (h e (List.mem_cons_self e es) k hk)
      simp only [processItemsEvents, List.foldl_cons, hstep]
      exact ih db (fun ev hev k hk => h ev (List.mem_cons_of_mem e hev) k hk)

theorem processItemsEvents_idem (ww : String) (wids : List String) (ca : String)
    (db : List ItemsRow) (evs : List ItemsEvent) :
    processItemsEvents ww wids ca (processItemsEvents ww wids ca db evs) evs =
      processItemsEvents ww wids ca db evs :=
  processItemsEvents_fixed ww wids ca evs (processItemsEvents ww wids ca db evs)
    (fun ev hev k hk => processItemsEvents_key_mem ww wids ca evs db ev k hev hk)

theorem eggProcessEvents_nodup (evs : List (EggTransferEvent × String × String)) :
    ∀ db : List EggRow, (db.map makeKey).Nodup →
      ((eggProcessEvents db evs).map makeKey).Nodup := by
  induction evs with
  | nil => intro db h; simpa [eggProcessEvents] using h
  | cons e es ih =>
      intro db h
      simp only [eggProcessEvents, List.foldl_cons]
      exact ih (eggProcessEvent db e.1 e.2.1 e.2.2)
        (dedupSortAppend_key_nodup makeKey (fun r => r.blockNumber) db _ h)

/-- The dedup key of the row an egg-monitor event appends: it depends only on
the raw event (`makeKey (eggRow ... ev.tokenId ... ev.txHash ...)`). -/
def eggEventKey (ev : EggTransferEvent) : String :=
  lowerStr ev.txHash ++ "_" ++ toString ev.tokenId

theorem eggProcessEvent_key_mem (db : List EggRow) (ev : EggTransferEvent)
    (eggType isoDate : String) :
    eggEventKey ev ∈ (eggProcessEvent db ev eggType isoDate).map makeKey :=
  key_mem_dedupSortAppend makeKey (fun r => r.blockNumber) db
    (eggRow (lowerStr ev.fromAddr) (lowerStr ev.toAddr) ev.tokenId eggType
      ev.blockNumber ev.txHash isoDate)

theorem eggProcessEvent_mono (db : List EggRow) (ev : EggTransferEvent)
    (eggType isoDate : String) (k : String) (hk : k ∈ db.map makeKey) :
    k ∈ (eggProcessEvent db ev eggType isoDate).map makeKey :=
  mem_key_dedupSortAppend_mono makeKey (fun r => r.blockNumber) db _ k hk

theorem eggProcessEvent_fixed (db : List EggRow) (ev : EggTransferEvent)
    (eggType isoDate : String) (hk : eggEventKey ev ∈ db.map makeKey) :
    eggProcessEvent db ev eggType isoDate = db := by
  apply dedupSortAppend_of_mem
  rw [List.mem_map] at hk
  obtain ⟨x, hx, hkey⟩ := hk
  exact ⟨x, hx, hkey⟩

theorem eggProcessEvents_mono (evs : List (EggTransferEvent × String × String)) :
    ∀ (db : List EggRow) (k : String), k ∈ db.map makeKey →
      k ∈ (eggProcessEvents db evs).map makeKey := by
  induction evs with
  | nil => intro db k h; simpa [eggProcessEvents] using h
  | cons e es ih =>
      intro db k h
      simp only [eggProcessEvents, List.foldl_cons]
      exact ih (eggProcessEvent db e.1 e.2.1 e.2.2) k
        (eggProcessEvent_mono db e.1 e.2.1 e.2.2 k h)

theorem eggProcessEvents_key_mem (evs : List (EggTransferEvent × String × String)) :
    ∀ (db : List EggRow) (p : EggTransferEvent × String × String), p ∈ evs →
      eggEventKey p.1 ∈ (eggProcessEvents db evs).map makeKey := by
  induction evs with
  | nil =>
      intro db p h
      simp at h
  | cons e es ih =>
      intro db p hp
      simp only [eggProcessEvents, List.foldl_cons]
      rcases List.mem_cons.mp hp with he | he
      · subst he
        exact eggProcessEvents_mono es (eggProcessEvent db p.1 p.2.1 p.2.2)
          (eggEventKey p.1) (eggProcessEvent_key_mem db p.1 p.2.1 p.2.2)
      · exact ih (eggProcessEvent db e.1 e.2.1 e.2.2) p he

theorem eggProcessEvents_fixed (evs : List (EggTransferEvent × String × String)) :
    ∀ db : List EggRow, (∀ p ∈ evs, eggEventKey p.1 ∈ db.map makeKey) →
      eggProcessEvents db evs = db := by
  induction evs with
  | nil => intro db _; rfl
  | cons e es ih =>
      intro db h
      have hstep : eggProcessEvent db e.1 e.2.1 e.2.2 = db :=
        eggProcessEvent_fixed db e.1 e.2.1 e.2.2 (h e (List.mem_cons_self e es))
      simp only [eggProcessEvents, List.foldl_cons, hstep]
      exact ih db (fun p hp => h p (List.mem_cons_of_mem e hp))

theorem eggProcessEvents_idem (db : List EggRow)
    (evs : List (EggTransferEvent × String × String)) :
    eggProcessEvents (eggProcessEvents db evs) evs = eggProcessEvents db evs :=
  eggProcessEvents_fixed evs (eggProcessEvents db evs)
    (fun p hp => eggProcessEvents_key_mem evs db p hp)

/-- C1 as stated is false for the egg monitor: a transaction containing two
matching transfer events (same hash `0xAB`, token ids 1 and 2) is recorded
twice — the reachable store holds two records with the same transaction hash. -/
theorem C1_counterexample :
    ((eggProcessEvents []
        [(⟨"0xsender", "0xwallet", 1, 10, "0xAB"⟩, "Fire", "2025-01-01"),
         (⟨"0xsender", "0xwallet", 2, 10, "0xAB"⟩, "Fire", "2025-01-01")]).countP
      (fun r => lowerStr r.txHash == "0xab")) = 2 := by
  rfl

/-- C1 amended: in every state of the items monitor's store reachable by
filter-and-append operations, each transaction hash (case-insensitively)
occurs in at most one stored record; in the egg monitor's store uniqueness is
instead enforced per `makeKey`, i.e. per (transaction hash, token id) pair, so
a transaction is recorded at most once *per token id*, not at most once. -/
theorem C1_uniqueness (watchWallet contractAddress : String) (watchIds : List String)
    (itemsEvs : List ItemsEvent) (eggEvs : List (EggTransferEvent × String × String)) :
    ((processItemsEvents watchWallet watchIds contractAddress [] itemsEvs).map itemsKey).Nodup ∧
    ((eggProcessEvents [] eggEvs).map makeKey).Nodup :=
  ⟨processItemsEvents_nodup watchWallet watchIds contractAddress itemsEvs [] (by simp),
   eggProcessEvents_nodup eggEvs [] (by simp)⟩

/-- C8 as stated is false for the egg monitor's store: appending a record
whose transaction hash is already present (same hash `0xCD`, different token
id) does not leave the store unchanged — it produces a second record. -/
theorem C8_counterexample :
    eggAppend [eggRow "0xs" "0xw" 1 "Fire" 10 "0xCD" "d"]
        (eggRow "0xs" "0xw" 2 "Fire" 10 "0xCD" "d") ≠
      [eggRow "0xs" "0xw" 1 "Fire" 10 "0xCD" "d"] ∧
    (eggAppend [eggRow "0xs" "0xw" 1 "Fire" 10 "0xCD" "d"]
        (eggRow "0xs" "0xw" 2 "Fire" 10 "0xCD" "d")).length = 2 := by
  constructor
  · decide
  · rfl

/-- C8 amended: appending a record whose dedup key is already present leaves
the store unchanged — the key being the transaction hash for the items
monitor and the (transaction hash, token id) `makeKey` for the egg monitor —
and re-processing an already-scanned range's events leaves each monitor's
store (and hence its record count) exactly as it was. -/
theorem C8_idempotence (db1 : List ItemsRow) (row1 : ItemsRow)
    (db2 : List EggRow) (row2 : EggRow) (watchWallet contractAddress : String)
    (watchIds : List String) (db : List ItemsRow) (evs : List ItemsEvent)
    (dbe : List EggRow) (eggEvs : List (EggTransferEvent × String × String))
    (h1 : ∃ x ∈ db1, lowerStr x.txHash = lowerStr row1.txHash)
    (h2 : ∃ x ∈ db2, makeKey x = makeKey row2) :
    itemsAppend db1 row1 = db1 ∧ eggAppend db2 row2 = db2 ∧
      (processItemsEvents watchWallet watchIds contractAddress
          (processItemsEvents watchWallet watchIds contractAddress db evs) evs =
        processItemsEvents watchWallet watchIds contractAddress db evs) ∧
      eggProcessEvents (eggProcessEvents dbe eggEvs) eggEvs = eggProcessEvents dbe eggEvs :=
  ⟨dedupSortAppend_of_mem itemsKey (fun r => r.blockNumber) db1 row1 h1,
   dedupSortAppend_of_mem makeKey (fun r => r.blockNumber) db2 row2 h2,
   processItemsEvents_idem watchWallet watchIds contractAddress db evs,
   eggProcessEvents_idem dbe eggEvs⟩

theorem C8_idempotence_witness :
    itemsAppend [itemsRow "0xs" "0xw" [5] [3] 7 "0xHASH" "d" "0xc"]
        (itemsRow "0xs" "0xw" [5] [9] 8 "0xhash" "d" "0xc") =
      [itemsRow "0xs" "0xw" [5] [3] 7 "0xHASH" "d" "0xc"] ∧
    eggAppend [eggRow "0xs" "0xw" 1 "Fire" 10 "0xEF" "d"]
        (eggRow "0xs" "0xw" 1 "Water" 11 "0xef" "d") =
      [eggRow "0xs" "0xw" 1 "Fire" 10 "0xEF" "d"] ∧
    (processItemsEvents "0xw" WATCH_TOKEN_IDS "0xc"
        (processItemsEvents "0xw" WATCH_TOKEN_IDS "0xc" []
          [.single ⟨"0xs", "0xw", 5, 3, 7, "0xh"⟩ "d"])
        [.single ⟨"0xs", "0xw", 5, 3, 7, "0xh"⟩ "d"] =
      processItemsEvents "0xw" WATCH_TOKEN_IDS "0xc" []
        [.single ⟨"0xs", "0xw", 5, 3, 7, "0xh"⟩ "d"]) ∧
    eggProcessEvents
        (eggProcessEvents [] [(⟨"0xs", "0xw", 9, 12, "0xk"⟩, "Fire", "d")])
        [(⟨"0xs", "0xw", 9, 12, "0xk"⟩, "Fire", "d")] =
      eggProcessEvents [] [(⟨"0xs", "0xw", 9, 12, "0xk"⟩, "Fire", "d")] :=
  C8_idempotence
    [itemsRow "0xs" "0xw" [5] [3] 7 "0xHASH" "d" "0xc"]
    (itemsRow "0xs" "0xw" [5] [9] 8 "0xhash" "d" "0xc")
    [eggRow "0xs" "0xw" 1 "Fire" 10 "0xEF" "d"]
    (eggRow "0xs" "0xw" 1 "Water" 11 "0xef" "d")
    "0xw" "0xc" WATCH_TOKEN_IDS []
    [.single ⟨"0xs", "0xw", 5, 3, 7, "0xh"⟩ "d"]
    [] [(⟨"0xs", "0xw", 9, 12, "0xk"⟩, "Fire", "d")]
    (by decide) (by decide)

/-! ### C4 / C10: watch filtering -/

/-- C4: an event whose receiving address does not case-insensitively equal the
configured watched account (stored lowercased, line 13) produces no record,
for both single and batch shapes; a batch whose watched subset is empty
produces no record; and the concrete batch event with assetIds `[5, 999]`
(999 unwatched) and amounts `[3, 7]` addressed to the watched account yields
exactly one record with asset-identifier list `["5"]` and total amount `"3"`. -/
theorem C4_watch_filtering :
    (∀ (raw : String) (wids : List String) (ev : TransferSingleEvent),
        lowerStr ev.toAddr ≠ lowerStr raw →
        handleTransferSingle (lowerStr raw) wids ev = none) ∧
    (∀ (raw : String) (wids : List String) (ev : TransferBatchEvent),
        lowerStr ev.toAddr ≠ lowerStr raw →
        handleTransferBatch (lowerStr raw) wids ev = none) ∧
    (∀ (ww : String) (wids : List String) (ev : TransferBatchEvent),
        (ev.ids.zip ev.values).filter
            (fun p => decide (p.1 ≠ 0 ∧ p.2 ≠ 0 ∧ toString p.1 ∈ wids)) = [] →
        handleTransferBatch ww wids ev = none) ∧
    (processTransferBatch "0xwallet" WATCH_TOKEN_IDS "0xcontract" []
        ⟨"0xSender", "0xWallet", [5, 999], [3, 7], 42, "0xhash"⟩ "2025-01-01" =
      [itemsRow "0xsender" "0xwallet" [5] [3] 42 "0xhash" "2025-01-01" "0xcontract"]) ∧
    ((itemsRow "0xsender" "0xwallet" [5] [3] 42 "0xhash" "2025-01-01" "0xcontract").tokenIds =
        ["5"] ∧
      (itemsRow "0xsender" "0xwallet" [5] [3] 42 "0xhash" "2025-01-01"
          "0xcontract").totalAmount = "3") := by
  refine ⟨?_, ?_, ?_, ?_, ?_⟩
  · intro raw wids ev h
    simp [handleTransferSingle, h]
  · intro raw wids ev h
    simp [handleTransferBatch, h]
  · intro ww wids ev h
    simp only [handleTransferBatch, h]
    split
    · rfl
    · simp
  · decide
  · decide

theorem C4_watch_filtering_witness :
    handleTransferSingle (lowerStr "0xWallet") WATCH_TOKEN_IDS
        ⟨"0xsender", "0xother", 5, 3, 1, "0xh"⟩ = none ∧
    handleTransferBatch (lowerStr "0xWallet") WATCH_TOKEN_IDS
        ⟨"0xsender", "0xother", [5], [3], 1, "0xh"⟩ = none ∧
    handleTransferBatch "0xwallet" WATCH_TOKEN_IDS
        ⟨"0xsender", "0xwallet", [999], [3], 1, "0xh"⟩ = none :=
  ⟨C4_watch_filtering.1 "0xWallet" WATCH_TOKEN_IDS
      ⟨"0xsender", "0xother", 5, 3, 1, "0xh"⟩ (by decide),
   C4_watch_filtering.2.1 "0xWallet" WATCH_TOKEN_IDS
      ⟨"0xsender", "0xother", [5], [3], 1, "0xh"⟩ (by decide),
   C4_watch_filtering.2.2.1 "0xwallet" WATCH_TOKEN_IDS
      ⟨"0xsender", "0xwallet", [999], [3], 1, "0xh"⟩ (by decide)⟩

/-- C10: a single-transfer event with token id 0 or amount 0 produces no
record (the `!id || !value` guard, line 134), and every entry kept in a batch
record has nonzero token id and nonzero amount (the `!id || !value` skip,
line 162) — even when the receiver is the watched account and the id is
watched. -/
theorem C10_zero_id_or_amount_excluded :
    (∀ (ww : String) (wids : List String) (ev : TransferSingleEvent),
        ev.id = 0 ∨ ev.value = 0 → handleTransferSingle ww wids ev = none) ∧
    (∀ (ww : String) (wids : List String) (ev : TransferBatchEvent)
        (f t : String) (ids vals : List Nat),
        handleTransferBatch ww wids ev = some (f, t, ids, vals) →
        (∀ i ∈ ids, i ≠ 0) ∧ (∀ v ∈ vals, v ≠ 0)) := by
  constructor
  · intro ww wids ev h
    simp [handleTransferSingle, h]
  · intro ww wids ev f t ids vals h
    simp only [handleTransferBatch] at h
    split at h
    · exact absurd h (by simp)
    · split at h
      · exact absurd h (by simp)
      · simp only [Option.some.injEq, Prod.mk.injEq] at h
        obtain ⟨-, -, hids, hvals⟩ := h
        constructor
        · intro i hi
          rw [← hids] at hi
          rw [List.mem_map] at hi
          obtain ⟨p, hp, hpi⟩ := hi
          have := List.of_mem_filter hp
          rw [decide_eq_true_eq] at this
          exact hpi ▸ this.1
        · intro v hv
          rw [← hvals] at hv
          rw [List.mem_map] at hv
          obtain ⟨p, hp, hpv⟩ := hv
          have := List.of_mem_filter hp
          rw [decide_eq_true_eq] at this
          exact hpv ▸ this.2.1

theorem C10_zero_id_or_amount_excluded_witness :
    handleTransferSingle "0xwallet" WATCH_TOKEN_IDS
        ⟨"0xsender", "0xwallet", 5, 0, 1, "0xh"⟩ = none ∧
    ((∀ i ∈ [(5 : Nat)], i ≠ 0) ∧ ∀ v ∈ [(3 : Nat)], v ≠ 0) :=
  ⟨C10_zero_id_or_amount_excluded.1 "0xwallet" WATCH_TOKEN_IDS
      ⟨"0xsender", "0xwallet", 5, 0, 1, "0xh"⟩ (Or.inr rfl),
   C10_zero_id_or_amount_excluded.2 "0xwallet" WATCH_TOKEN_IDS
      ⟨"0xsender", "0xwallet", [5, 0], [3, 7], 1, "0xh"⟩ "0xsender" "0xwallet" [5] [3]
      (by decide)⟩

/-! ### Live Poll Loop (`tick`, egg_premium.js lines 187-205, items monitor
lines 236-254) and Historical Backfill start computation (`scanHistorical`,
egg lines 148-162, items lines 198-212) -/

/-- The while-loop of `tick`:
`while (cursor <= safeHead) { sliceEnd = Math.min(cursor + CHUNK, safeHead); ...;
cursor = sliceEnd + 1 }` — the slices scanned during one tick.  `CHUNK` is a
parsed nonnegative config integer; heights are `Int` because
`safeHead = head - CONFIRMATIONS` may be negative. -/
def tickRanges (chunk : Nat) (safeHead cursor : Int) : List (Int × Int) :=
  if _h : cursor ≤ safeHead then
    (cursor, min (cursor + (chunk : Int)) safeHead) ::
      tickRanges chunk safeHead (min (cursor + (chunk : Int)) safeHead + 1)
  else []
termination_by (safeHead + 1 - cursor).toNat
decreasing_by omega

/-- The slices one tick processes: none when `safeHead <= lastProcessed`
(the early return), otherwise the while-loop from `lastProcessed + 1`. -/
def tickScanRanges (conf : Int) (chunk : Nat) (head lastProcessed : Int) :
    List (Int × Int) :=
  if head - conf ≤ lastProcessed then []
  else tickRanges chunk (head - conf) (lastProcessed + 1)

theorem tickRanges_le (chunk : Nat) (safeHead : Int) (cursor : Int) (r : Int × Int)
    (hr : r ∈ tickRanges chunk safeHead cursor) : r.2 ≤ safeHead := by
  induction cursor using tickRanges.induct chunk safeHead with
  | case1 x hx ih =>
      rw [tickRanges] at hr
      simp only [dif_pos hx, List.mem_cons] at hr
      rcases hr with hr | hr
      · subst hr
        simp
      · exact ih hr
  | case2 x hx =>
      rw [tickRanges] at hr
      simp [dif_neg hx] at hr

/-- C5: no slice processed during a tick extends past `head - confirmations`:
every scanned range's end is at most `H - C`. -/
theorem C5_confirmation_lag (conf : Int) (chunk : Nat) (head lastProcessed : Int)
    (r : Int × Int) (hr : r ∈ tickScanRanges conf chunk head lastProcessed) :
    r.2 ≤ head - conf := by
  unfold tickScanRanges at hr
  split at hr
  · simp at hr
  · exact tickRanges_le chunk (head - conf) (lastProcessed + 1) r hr

theorem C5_confirmation_lag_witness : ((51, 98) : Int × Int).2 ≤ 100 - 2 :=
  C5_confirmation_lag 2 2000 100 50 (51, 98)
    (by rw [tickScanRanges, if_neg (by norm_num), tickRanges, tickRanges]; norm_num)

/-- The body of `tick`'s `try` block, with the chain client's fallible calls
modelled as `Except`: fetch the head, early-return when nothing has matured,
otherwise run `querySlice` per sub-range; on success the new checkpoint is
`safeHead`.  A `.error` is whatever exception escapes the body. -/
def scanLoop (chunk : Nat) (query : Int → Int → Except String Unit)
    (safeHead cursor : Int) : Except String Unit :=
  if _h : cursor ≤ safeHead then
    match query cursor (min (cursor + (chunk : Int)) safeHead) with
    | .error e => .error e
    | .ok _ => scanLoop chunk query safeHead (min (cursor + (chunk : Int)) safeHead + 1)
  else .ok ()
termination_by (safeHead + 1 - cursor).toNat
decreasing_by omega

def tickBody (conf : Int) (chunk : Nat) (getHead : Except String Int)
    (query : Int → Int → Except String Unit) (lastProcessed : Int) :
    Except String Int :=
  match getHead with
  | .error e => .error e
  | .ok head =>
      if head - conf ≤ lastProcessed then .ok lastProcessed
      else
        match scanLoop chunk query (head - conf) (lastProcessed + 1) with
        | .error e => .error e
        | .ok _ => .ok (head - conf)

/-- `tick` with its `try { ... } catch (e) { log(...) }`: the value is the
`lastProcessed` checkpoint after the tick — on any caught error the previous
checkpoint is kept. -/
def tick (conf : Int) (chunk : Nat) (getHead : Except String Int)
    (query : Int → Int → Except String Unit) (lastProcessed : Int) : Int :=
  match tickBody conf chunk getHead query lastProcessed with
  | .ok v => v
  | .error _ => lastProcessed

/-- C7: when any retrieval or processing step of a tick fails, the error is
caught (`tick` still returns a checkpoint value, never re-raises) and the
checkpoint after the tick equals the checkpoint before it. -/
theorem C7_tick_error_keeps_checkpoint (conf : Int) (chunk : Nat)
    (getHead : Except String Int) (query : Int → Int → Except String Unit)
    (lastProcessed : Int) (e : String)
    (h : tickBody conf chunk getHead query lastProcessed = .error e) :
    tick conf chunk getHead query lastProcessed = lastProcessed := by
  unfold tick
  rw [h]

theorem C7_tick_error_keeps_checkpoint_witness :
    tick 2 2000 (.ok 100) (fun _ _ => .error "rpc timeout") 50 = 50 :=
  C7_tick_error_keeps_checkpoint 2 2000 (.ok 100) (fun _ _ => .error "rpc timeout")
    50 "rpc timeout"
    (by rw [tickBody, if_neg (by norm_num), scanLoop]; norm_num)

/-- `scanHistorical`'s starting-height computation (egg lines 148-162, items
lines 198-212): a prior checkpoint wins, then the `FROM_BLOCK` env override,
then `latest - INIT_LOOKBACK`; `none` models an unset or empty `FROM_BLOCK`. -/
def computeStart (progress : Int) (fromBlockEnv : Option Int)
    (latest conf lookback : Int) : Int :=
  if progress > 0 then max 0 (progress - conf)
  else
    match fromBlockEnv with
    | some v => v
    | none => max 0 (latest - lookback)

/-- C6: the Historical Backfill Driver's starting height follows the
precedence: checkpoint > 0 ⟹ `max 0 (checkpoint - confirmations)`; otherwise
a configured override ⟹ the override; otherwise `max 0 (head - lookback)`. -/
theorem C6_compute_start (progress latest conf lookback : Int)
    (fromBlockEnv : Option Int) :
    (progress > 0 →
      computeStart progress fromBlockEnv latest conf lookback = max 0 (progress - conf)) ∧
    (progress ≤ 0 → ∀ v, fromBlockEnv = some v →
      computeStart progress fromBlockEnv latest conf lookback = v) ∧
    (progress ≤ 0 → fromBlockEnv = none →
      computeStart progress fromBlockEnv latest conf lookback = max 0 (latest - lookback)) := by
  refine ⟨?_, ?_, ?_⟩
  · intro h
    simp [computeStart, h]
  · intro h v hv
    simp [computeStart, Int.not_lt.mpr h, hv]
  · intro h hv
    simp [computeStart, Int.not_lt.mpr h, hv]

theorem C6_compute_start_witness :
    computeStart 500 (some 123) 10000 2 50000 = max 0 (500 - 2) ∧
    computeStart 0 (some 123) 10000 2 50000 = 123 ∧
    computeStart 0 none 10000 2 50000 = max 0 (10000 - 50000) :=
  ⟨(C6_compute_start 500 10000 2 50000 (some 123)).1 (by norm_num),
   (C6_compute_start 0 10000 2 50000 (some 123)).2.1 (by norm_num) 123 rfl,
   (C6_compute_start 0 10000 2 50000 none).2.2 (by norm_num) rfl⟩

/-! ### C9: tick scheduling

`startLivePoll` (egg lines 207-208, items lines 256-257) runs
`await tick(); setInterval(tick, POLL_INTERVAL_MS);` — a fixed-rate repeating
timer with no single-flight guard: nothing delays the n-th firing while an
earlier tick is still running. -/

/-- Default `POLL_INTERVAL_MS` (egg line 14, items line 19). -/
def POLL_INTERVAL_MS : Nat := 3000

/-- Start time of the n-th `setInterval` firing of `tick`, in ms after the
interval is installed: fixed rate, `n * intervalMs`, unconditionally. -/
def tickStartTime (intervalMs n : Nat) : Nat := n * intervalMs

/-- Tick `m` (running `durMs m` milliseconds) is still running when tick `n`
begins. -/
def ticksOverlap (intervalMs : Nat) (durMs : Nat → Nat) (m n : Nat) : Prop :=
  m < n ∧ tickStartTime intervalMs n < tickStartTime intervalMs m + durMs m

/-- C9 fails on the code: with the default 3000 ms poll interval, a tick that
takes 7000 ms (e.g. a backfill of a burst of new blocks) is still running when
the next fixed-rate `setInterval` firing starts tick 1 at t = 3000 ms — the
code has neither a single-flight guard nor delay-after-completion scheduling,
so ticks are not serialized. -/
theorem C9_fixed_rate_ticks_overlap :
    ticksOverlap POLL_INTERVAL_MS (fun _ => 7000) 0 1 := by
  constructor <;> norm_num [tickStartTime, POLL_INTERVAL_MS]

end Dis
